import Mathlib

/-!
Verification of the DASH audio download core of `src/main.py`
(SharePoint Audio Downloader).

The Python source is shallowly embedded as executable Lean definitions:
byte strings are `List Nat` (each element a byte value), Python `int`s
are `Int`, `None`-able values are `Option`, and exceptions escaping a
function are `Option`/failure results.  The AES-128 block primitive
comes from the external `cryptography` library, so it is abstracted as
an arbitrary per-block function with the properties the library
guarantees (16-byte output blocks; encryption/decryption inverse on
16-byte blocks).  `asyncio.gather` returns its results in argument
order, so a batch of concurrent fetches is embedded as `List.map` of a
pure fetch function over the batch.
-/

namespace VDown

/-! ## Segment timeline expansion (`_parse_adaptation_set`, src/main.py:332-340)

    times = []
    t = 0
    for s_elem in timeline.findall(...):
        d = int(s_elem.get("d"))
        r = int(s_elem.get("r", "0"))
        for _ in range(r + 1):
            times.append(t)
            t += d

`range(r + 1)` iterates `max (r+1) 0` times, i.e. `(r+1).toNat` times,
and `t` is advanced inside that inner loop only. -/

/-- One timeline entry: the inner loop of src/main.py:338-340 starting at
clock `t` with duration `d`, run `k` times: each iteration appends the
clock value, then advances the clock by `d`. -/
def emitEntry (t d : Int) : Nat → List Int
  | 0 => []
  | k + 1 => t :: emitEntry (t + d) d k

/-- The outer loop of src/main.py:335-340 from a running clock `t`. -/
def expandFrom (t : Int) : List (Int × Int) → List Int
  | [] => []
  | (d, r) :: rest =>
      emitEntry t d (r + 1).toNat ++ expandFrom (t + ((r + 1).toNat : Int) * d) rest

/-- The `times` list built at src/main.py:332-340: clock starts at 0. -/
def expandTimeline (entries : List (Int × Int)) : List Int :=
  expandFrom 0 entries

/-! ## Decryptor (`_decrypt`, src/main.py:351-361)

    cipher = Cipher(algorithms.AES(key), modes.CBC(iv))
    dec = cipher.decryptor()
    result = dec.update(data) + dec.finalize()
    if result:
        pad = result[-1]
        if 1 <= pad <= 16 and all(b == pad for b in result[-pad:]):
            result = result[:-pad]
    return result

The library's CBC decryptor splits `data` into 16-byte blocks (raising
`ValueError` at `finalize()` when the length is not a multiple of 16,
embedded as `none`), applies the AES block decryption `D` to each block
and XORs with the previous ciphertext block (the IV for the first).
Python's clamping slices `result[-pad:]` / `result[:-pad]` coincide with
`List.drop (len - pad)` / `List.take (len - pad)` under `Nat`
subtraction. -/

/-- Split a byte string into 16-byte blocks; `none` when the length is
not a multiple of 16 (the `ValueError` of `finalize()`).  Fuel is the
list length, enough since each step consumes 16 ≥ 1 bytes. -/
def toBlocksAux : Nat → List Nat → Option (List (List Nat))
  | _, [] => some []
  | 0, _ :: _ => none
  | fuel + 1, a :: l =>
      if 16 ≤ (a :: l).length then
        (toBlocksAux fuel ((a :: l).drop 16)).map (fun bs => (a :: l).take 16 :: bs)
      else none

def toBlocks (data : List Nat) : Option (List (List Nat)) :=
  toBlocksAux data.length data

/-- CBC block decryption: plaintext block `i` is `D c_i XOR c_(i-1)`,
with the IV as block `-1`.  `prev` is the previous ciphertext block. -/
def cbcDecryptFrom (D : List Nat → List Nat) : List Nat → List (List Nat) → List (List Nat)
  | _, [] => []
  | prev, c :: cs => List.zipWith Nat.xor (D c) prev :: cbcDecryptFrom D c cs

def cbcDecrypt (D : List Nat → List Nat) (iv : List Nat) (cs : List (List Nat)) : List (List Nat) :=
  cbcDecryptFrom D iv cs

/-- The manual PKCS7 unpadding of src/main.py:356-361. -/
def unpad (result : List Nat) : List Nat :=
  match result.getLast? with
  | none => result
  | some pad =>
      if 1 ≤ pad ∧ pad ≤ 16 ∧ ∀ b ∈ result.drop (result.length - pad), b = pad then
        result.take (result.length - pad)
      else result

/-- `_decrypt` (src/main.py:351-361) with the AES block decryption of the
16-byte `key` abstracted as `D`.  `none` embeds the `ValueError` raised
on input whose length is not a multiple of the block size. -/
def pyDecrypt (D : List Nat → List Nat) (iv : List Nat) (data : List Nat) : Option (List Nat) :=
  (toBlocks data).map (fun bs => unpad ((cbcDecrypt D iv bs).flatten))

/-! ## CBC encryption with PKCS7 padding

Encryption is not performed by the repository; these definitions model
the standard AES-CBC/PKCS7 encryption that produced the segments, which
the spec's round-trip property refers to, with the AES block encryption
abstracted as `E`. -/

/-- PKCS7 padding for block size 16: append `p` copies of `p`, where
`p = 16 - len % 16` (a full block of 16 when the length is already a
multiple of 16). -/
def pkcs7pad (pt : List Nat) : List Nat :=
  pt ++ List.replicate (16 - pt.length % 16) (16 - pt.length % 16)

/-- CBC block encryption: `c_i = E (p_i XOR c_(i-1))`, the IV as block
`-1`.  `prev` is the previous ciphertext block. -/
def cbcEncryptFrom (E : List Nat → List Nat) : List Nat → List (List Nat) → List (List Nat)
  | _, [] => []
  | prev, b :: bs =>
      E (List.zipWith Nat.xor b prev) :: cbcEncryptFrom E (E (List.zipWith Nat.xor b prev)) bs

def cbcEncrypt (E : List Nat → List Nat) (iv : List Nat) (bs : List (List Nat)) : List (List Nat) :=
  cbcEncryptFrom E iv bs

/-- The whole encryption pipeline the round-trip property refers to:
PKCS7-pad the plaintext, split into 16-byte blocks, CBC-encrypt with
block cipher `E` under `iv`, concatenate the ciphertext blocks. -/
def encryptPipeline (E : List Nat → List Nat) (iv : List Nat) (pt : List Nat) :
    Option (List Nat) :=
  (toBlocks (pkcs7pad pt)).map (fun bs => (cbcEncrypt E iv bs).flatten)

/-- A concrete block function (the identity on 16-byte blocks, padding
or truncating anything else to 16 bytes), used to instantiate the
abstract cipher in witnesses. -/
def idBlock (x : List Nat) : List Nat :=
  (x ++ List.replicate 16 0).take 16

/-! ## IV resolution (`_parse_adaptation_set`, src/main.py:318-323)

    cp = adapt.find(...ContentProtection)
    crypto = cp.find(...CryptoPeriod) if cp is not None else None
    iv_hex = crypto.get("IV", "0x00000000000000000000000000000000") if crypto is not None else ""
    iv = bytes.fromhex(iv_hex.replace("0x", ""))

`crypto : Option (Option String)`: the outer layer is presence of the
`CryptoPeriod` element (absence of either `ContentProtection` or
`CryptoPeriod` gives `none`), the inner layer is presence of its `IV`
attribute. -/

/-- Value of one hex digit, `none` for a non-digit
(`bytes.fromhex` raises `ValueError`). -/
def hexVal (c : Char) : Option Nat :=
  if '0' ≤ c ∧ c ≤ '9' then some (c.toNat - '0'.toNat)
  else if 'a' ≤ c ∧ c ≤ 'f' then some (c.toNat - 'a'.toNat + 10)
  else if 'A' ≤ c ∧ c ≤ 'F' then some (c.toNat - 'A'.toNat + 10)
  else none

/-- ASCII whitespace as CPython's `Py_ISSPACE` recognizes it: space,
tab, line feed, vertical tab, form feed, carriage return. -/
def isPyWS (c : Char) : Bool :=
  (c == ' ') || (c == '\t') || (c == '\n') || (c == '\x0b') || (c == '\x0c') || (c == '\r')

/-- `bytes.fromhex`: pairs of hex digits to bytes; ASCII whitespace
between pairs is skipped; `none` embeds `ValueError` (odd digit count,
whitespace inside a pair, or non-hex character). -/
def fromHexPairs : List Char → Option (List Nat)
  | [] => some []
  | c :: rest =>
      if isPyWS c then fromHexPairs rest
      else
        match rest with
        | [] => none
        | c2 :: rest2 =>
            match hexVal c, hexVal c2, fromHexPairs rest2 with
            | some hi, some lo, some bs => some ((16 * hi + lo) :: bs)
            | _, _, _ => none

/-- Python `str.replace("0x", "")`: remove occurrences of `"0x"`
scanning left to right without rescanning. -/
def strip0x : List Char → List Char
  | [] => []
  | '0' :: 'x' :: rest => strip0x rest
  | c :: rest => c :: strip0x rest

/-- The `iv` computed at src/main.py:322-323.  `none` embeds a
`ValueError` escaping `bytes.fromhex`. -/
def resolveIV (crypto : Option (Option String)) : Option (List Nat) :=
  let ivHex : String :=
    match crypto with
    | none => ""
    | some none => "0x00000000000000000000000000000000"
    | some (some s) => s
  fromHexPairs (strip0x ivHex.data)

/-! ## Track selection (`_download_dash_audio`, src/main.py:205-220)

    audio_track = None
    for adapt in period.findall(...AdaptationSet):
        if adapt.get("contentType") != "audio":
            continue
        label_el = adapt.find(...Label)
        label = label_el.text if label_el is not None else "audio"
        track = _parse_adaptation_set(adapt, base_url)
        if not audio_track or label == "OriginalAudio":
            audio_track = track
            audio_track["label"] = label
    if not audio_track:
        print("  ERRORE: nessuna traccia audio nel manifest.")
        return False

An `AdaptationSet` is embedded with the two fields selection reads;
`labelEl` is `none` when the `Label` element is absent, and
`some none` when it is present with no text (Python `label_el.text` is
`None` then). -/

structure AdaptationSet where
  contentType : String
  labelEl : Option (Option String)
  deriving DecidableEq, Repr

/-- The Python `label` local: `label_el.text if label_el is not None
else "audio"`, with Python `None` as `none`. -/
def pyLabel (a : AdaptationSet) : Option String :=
  match a.labelEl with
  | none => some "audio"
  | some t => t

/-- One iteration of the selection loop body (src/main.py:207-216). -/
def selectStep (acc : Option AdaptationSet) (a : AdaptationSet) : Option AdaptationSet :=
  if a.contentType ≠ "audio" then acc
  else
    match acc with
    | none => some a
    | some prev => if pyLabel a = some "OriginalAudio" then some a else some prev

/-- The selected audio track after the whole loop; `none` means the
fatal "nessuna traccia audio" failure path of src/main.py:218-220. -/
def selectTrack (sets : List AdaptationSet) : Option AdaptationSet :=
  sets.foldl selectStep none

/-- An audio set labeled exactly `"OriginalAudio"`. -/
def isOrig (a : AdaptationSet) : Bool :=
  a.contentType == "audio" && pyLabel a == some "OriginalAudio"

/-! ## Segment fetcher (`fetch_segment`, src/main.py:258-269)

    async def fetch_segment(seg_time):
        seg_url = audio_track["media_tpl"].replace("$Time$", str(seg_time))
        async with sem:
            for attempt in range(3):
                try:
                    r = await client.get(seg_url)
                    if r.status_code == 200:
                        return _decrypt(r.content, key, iv)
                except Exception:
                    if attempt < 2:
                        await asyncio.sleep(1)
            return None

One HTTP attempt either raises a transport error or yields a response
with a status code and body.  The trace records the returned value, how
many attempts ran, and how many 1-second sleeps happened.  Note the
`asyncio.sleep(1)` sits in the `except` branch only: a non-200 response
falls through the `if` and retries with no sleep. -/

inductive AttemptOutcome where
  | transportError : AttemptOutcome
  | response (status : Nat) (body : List Nat) : AttemptOutcome
  deriving DecidableEq, Repr

/-- `true` when the attempt does not produce a 200 response. -/
def attemptFailed : AttemptOutcome → Bool
  | .transportError => true
  | .response status _ => status != 200

structure FetchTrace where
  result : Option (List Nat)
  attemptsMade : Nat
  sleeps : Nat
  deriving DecidableEq, Repr

/-- The `for attempt in range(3)` loop; `remaining = 3 - attempt` is the
fuel.  `dec` is `_decrypt` with the key and IV already applied. -/
def fetchGo (att : Nat → AttemptOutcome) (dec : List Nat → List Nat) :
    Nat → Nat → Nat → FetchTrace
  | 0, attempt, slept => ⟨none, attempt, slept⟩
  | remaining + 1, attempt, slept =>
      match att attempt with
      | .transportError =>
          fetchGo att dec remaining (attempt + 1) (if attempt < 2 then slept + 1 else slept)
      | .response status body =>
          if status = 200 then ⟨some (dec body), attempt + 1, slept⟩
          else fetchGo att dec remaining (attempt + 1) slept

/-- `fetch_segment` for one segment: `att n` is the outcome of HTTP
attempt number `n`. -/
def fetchSegment (att : Nat → AttemptOutcome) (dec : List Nat → List Nat) : FetchTrace :=
  fetchGo att dec 3 0 0

/-! ## Assembler (`_download_dash_audio`, src/main.py:272-288)

    with open(temp_fmp4, "wb") as f:
        f.write(init_data)
        batch_size = 30
        for batch_start in range(0, n_segments, batch_size):
            batch_times = audio_track["segment_times"][batch_start:batch_start + batch_size]
            results = await asyncio.gather(*[fetch_segment(t) for t in batch_times])
            for data in results:
                if data:
                    f.write(data)

`fetch : Int → Option (List Nat)` is the per-segment plaintext result
(`none` for an unavailable segment); `asyncio.gather` yields results in
argument order, so a batch becomes `batch.map fetch`.  Python's `if
data:` also skips a successfully fetched empty body, which contributes
no bytes either way. -/

/-- Consecutive slices `times[start:start+30]` of the batching loop.
Fuel is the list length (each step consumes 30 ≥ 1 elements). -/
def batchesAux : Nat → List Int → List (List Int)
  | _, [] => []
  | 0, _ :: _ => []
  | fuel + 1, t :: rest => (t :: rest).take 30 :: batchesAux fuel ((t :: rest).drop 30)

def batches (times : List Int) : List (List Int) :=
  batchesAux times.length times

/-- The inner `for data in results: if data: f.write(data)` loop over one
batch's gathered results, appending to the bytes written so far. -/
def writeBatch (acc : List Nat) (results : List (Option (List Nat))) : List Nat :=
  results.foldl
    (fun a d =>
      match d with
      | some bs => if bs.isEmpty then a else a ++ bs
      | none => a)
    acc

/-- The whole segment-writing phase: the file contents after the init
segment's plaintext and every batch have been written. -/
def assemble (init : List Nat) (times : List Int) (fetch : Int → Option (List Nat)) :
    List Nat :=
  (batches times).foldl (fun acc batch => writeBatch acc (batch.map fetch)) init

/-- What `_download_dash_audio` surfaces to its caller after the segment
phase (src/main.py:272-288 and the `return True` path): the assembled
file contents and a success flag.  No per-segment failure information is
carried. -/
def downloadOutcome (init : List Nat) (times : List Int) (fetch : Int → Option (List Nat)) :
    List Nat × Bool :=
  (assemble init times fetch, true)

/-! ## Assembler lemmas -/

lemma writeBatch_eq (fetch : Int → Option (List Nat)) :
    ∀ (batch : List Int) (acc : List Nat),
      writeBatch acc (batch.map fetch) = acc ++ (batch.filterMap fetch).flatten := by
  intro batch
  induction batch with
  | nil => intro acc; simp [writeBatch]
  | cons t bt ih =>
      intro acc
      have step :
          writeBatch acc ((t :: bt).map fetch) =
            writeBatch
              (match fetch t with
               | some bs => if bs.isEmpty then acc else acc ++ bs
               | none => acc)
              (bt.map fetch) := by
        simp [writeBatch]
      rw [step, ih]
      cases h : fetch t with
      | none => simp [List.filterMap_cons, h]
      | some bs =>
          by_cases hbs : bs.isEmpty
          · have : bs = [] := by simpa [List.isEmpty_iff] using hbs
            simp [List.filterMap_cons, h, hbs, this]
          · simp [List.filterMap_cons, h, hbs, List.append_assoc]

lemma batchesAux_flatten :
    ∀ (fuel : Nat) (l : List Int), l.length ≤ fuel → (batchesAux fuel l).flatten = l := by
  intro fuel
  induction fuel with
  | zero =>
      intro l hl
      cases l with
      | nil => simp [batchesAux]
      | cons a l' => simp at hl
  | succ fuel ih =>
      intro l hl
      cases l with
      | nil => simp [batchesAux]
      | cons a l' =>
          have hdrop : ((a :: l').drop 30).length ≤ fuel := by
            simp only [List.length_drop]
            simp at hl ⊢
            omega
          simp only [batchesAux, List.flatten_cons, ih _ hdrop]
          exact List.take_append_drop 30 (a :: l')

lemma batches_flatten (times : List Int) : (batches times).flatten = times :=
  batchesAux_flatten times.length times le_rfl

lemma foldl_writeBatch (fetch : Int → Option (List Nat)) :
    ∀ (bs : List (List Int)) (acc : List Nat),
      bs.foldl (fun acc batch => writeBatch acc (batch.map fetch)) acc =
        acc ++ (bs.flatten.filterMap fetch).flatten := by
  intro bs
  induction bs with
  | nil => intro acc; simp
  | cons b bt ih =>
      intro acc
      rw [List.foldl_cons, ih, writeBatch_eq]
      simp [List.filterMap_append, List.append_assoc]

lemma assemble_eq (init : List Nat) (times : List Int) (fetch : Int → Option (List Nat)) :
    assemble init times fetch = init ++ (times.filterMap fetch).flatten := by
  unfold assemble
  rw [foldl_writeBatch, batches_flatten]

lemma filterMap_eq_map_of_forall (fetch : Int → Option (List Nat)) (plain : Int → List Nat) :
    ∀ (l : List Int), (∀ t ∈ l, fetch t = some (plain t)) →
      l.filterMap fetch = l.map plain := by
  intro l
  induction l with
  | nil => intro _; simp
  | cons t lt ih =>
      intro h
      have ht := h t (List.mem_cons_self t lt)
      simp [List.filterMap_cons, ht, ih fun x hx => h x (List.mem_cons_of_mem t hx)]

/-- Claim C1: the assembled output is the init segment's plaintext
followed by each media segment's plaintext in ascending start-time order
(the order of `segment_times`, independent of fetch-completion order,
which the batched `asyncio.gather` embedding collapses into argument
order); unavailable segments (`none`) contribute no bytes and no
placeholder, the remaining segments keeping their relative order; and
when every segment is available the output is exactly the in-order
concatenation of all plaintexts after the init segment. -/
theorem assembler_ordered_output (init : List Nat) (times : List Int)
    (fetch : Int → Option (List Nat)) (plain : Int → List Nat) :
    assemble init times fetch = init ++ (times.filterMap fetch).flatten
    ∧ ((∀ t ∈ times, fetch t = some (plain t)) →
        assemble init times fetch = init ++ (times.map plain).flatten) := by
  refine ⟨assemble_eq init times fetch, fun h => ?_⟩
  rw [assemble_eq, filterMap_eq_map_of_forall fetch plain times h]

/-- Witness for C1 at a concrete download: init `[1]`, two segments with
plaintexts `[2]` and `[3]`, all available. -/
theorem assembler_ordered_output_witness :
    assemble [1] [0, 4] (fun t => if t = 0 then some [2] else some [3]) = [1, 2, 3] :=
  ((assembler_ordered_output [1] [0, 4]
        (fun t => if t = 0 then some [2] else some [3])
        (fun t => if t = 0 then [2] else [3])).2
      (by decide)).trans (by decide)

/-- Claim C8 (corrected): what the segment phase surfaces is only the
assembled buffer and the constant success flag; no count of unavailable
segments is aggregated or returned. -/
theorem downloadOutcome_no_failure_count (init : List Nat) (times : List Int)
    (fetch : Int → Option (List Nat)) :
    downloadOutcome init times fetch = (init ++ (times.filterMap fetch).flatten, true) := by
  unfold downloadOutcome
  rw [assemble_eq]

/-- Counterexample to C8 as stated: two runs with different numbers of
unavailable segments (1 vs 0 of the 2 segments) produce identical
surfaced outcomes, so no unavailable-segment count reaches the caller. -/
theorem downloadOutcome_counterexample :
    downloadOutcome [9] [0, 4] (fun t => if t = 0 then some [5, 6] else none)
      = downloadOutcome [9] [0, 4] (fun t => if t = 0 then some [5] else some [6])
    ∧ (([0, 4] : List Int).filterMap (fun t => if t = 0 then some [5, 6] else none)).length = 1
    ∧ (([0, 4] : List Int).filterMap
        (fun t => if t = 0 then some ([5] : List Nat) else some [6])).length = 2 := by
  refine ⟨?_, by decide, by decide⟩
  decide

/-! ## Timeline lemmas -/

lemma emitEntry_length (t d : Int) (k : Nat) : (emitEntry t d k).length = k := by
  induction k generalizing t with
  | zero => rfl
  | succ m ih => simp [emitEntry, ih]

lemma emitEntry_head (t d : Int) (k : Nat) (hk : 0 < k) :
    (emitEntry t d k).head? = some t := by
  cases k with
  | zero => omega
  | succ m => rfl

lemma emitEntry_mem_ge (t d : Int) (hd : 0 ≤ d) :
    ∀ (k : Nat) (t' : Int), t ≤ t' → ∀ x ∈ emitEntry t' d k, t ≤ x := by
  intro k
  induction k with
  | zero => intro t' _ x hx; simp [emitEntry] at hx
  | succ m ih =>
      intro t' ht x hx
      rcases List.mem_cons.mp hx with rfl | hx
      · exact ht
      · exact ih (t' + d) (by omega) x hx

lemma emitEntry_mem_le (d : Int) (hd : 0 ≤ d) :
    ∀ (k : Nat) (t : Int), ∀ x ∈ emitEntry t d k, x ≤ t + (k : Int) * d := by
  intro k
  induction k with
  | zero => intro t x hx; simp [emitEntry] at hx
  | succ m ih =>
      intro t x hx
      have hcast : ((m + 1 : Nat) : Int) * d = (m : Int) * d + d := by push_cast; ring
      have hmd : (0 : Int) ≤ (m : Int) * d := mul_nonneg (Int.natCast_nonneg m) hd
      rcases List.mem_cons.mp hx with rfl | hx
      · linarith
      · have := ih (t + d) x hx
        linarith

lemma emitEntry_chain (d : Int) (hd : 0 ≤ d) :
    ∀ (k : Nat) (t : Int), List.Chain' (· ≤ ·) (emitEntry t d k) := by
  intro k
  induction k with
  | zero => intro t; simp [emitEntry]
  | succ m ih =>
      intro t
      refine List.chain'_cons'.mpr ⟨?_, ih (t + d)⟩
      intro y hy
      have hmem := List.mem_of_mem_head? hy
      have := emitEntry_mem_ge (t + d) d hd m (t + d) le_rfl y hmem
      omega

lemma expandFrom_length :
    ∀ (entries : List (Int × Int)) (t : Int),
      (expandFrom t entries).length = (entries.map (fun e => (e.2 + 1).toNat)).sum := by
  intro entries
  induction entries with
  | nil => intro t; simp [expandFrom]
  | cons e rest ih =>
      intro t
      obtain ⟨d, r⟩ := e
      simp [expandFrom, emitEntry_length, ih]

lemma expandFrom_mem_ge :
    ∀ (entries : List (Int × Int)) (t : Int),
      (∀ e ∈ entries, 0 < e.1 ∧ 0 ≤ e.2) →
      ∀ x ∈ expandFrom t entries, t ≤ x := by
  intro entries
  induction entries with
  | nil => intro t _ x hx; simp [expandFrom] at hx
  | cons e rest ih =>
      intro t hv x hx
      obtain ⟨d, r⟩ := e
      have hd : (0 : Int) ≤ d := le_of_lt (hv (d, r) (List.mem_cons_self _ _)).1
      simp only [expandFrom, List.mem_append] at hx
      rcases hx with hx | hx
      · exact emitEntry_mem_ge t d hd _ t le_rfl x hx
      · have hrest := ih (t + ((r + 1).toNat : Int) * d)
          (fun e he => hv e (List.mem_cons_of_mem _ he)) x hx
        have hnn : (0 : Int) ≤ ((r + 1).toNat : Int) * d :=
          mul_nonneg (Int.natCast_nonneg _) hd
        linarith

lemma expandFrom_chain :
    ∀ (entries : List (Int × Int)) (t : Int),
      (∀ e ∈ entries, 0 < e.1 ∧ 0 ≤ e.2) →
      List.Chain' (· ≤ ·) (expandFrom t entries) := by
  intro entries
  induction entries with
  | nil => intro t _; simp [expandFrom]
  | cons e rest ih =>
      intro t hv
      obtain ⟨d, r⟩ := e
      have hd : (0 : Int) ≤ d := le_of_lt (hv (d, r) (List.mem_cons_self _ _)).1
      have hvr : ∀ e ∈ rest, 0 < e.1 ∧ 0 ≤ e.2 :=
        fun e he => hv e (List.mem_cons_of_mem _ he)
      simp only [expandFrom]
      refine List.chain'_append.mpr ⟨emitEntry_chain d hd _ t, ih _ hvr, ?_⟩
      intro x hx y hy
      have hxm := List.mem_of_mem_getLast? hx
      have hym := List.mem_of_mem_head? hy
      have h1 := emitEntry_mem_le d hd _ t x hxm
      have h2 := expandFrom_mem_ge rest _ hvr y hym
      linarith

lemma emitEntry_zero_duration : ∀ (k : Nat) (t : Int), emitEntry t 0 k = List.replicate k t := by
  intro k
  induction k with
  | zero => intro t; rfl
  | succ m ih => intro t; simp [emitEntry, ih, List.replicate_succ]

lemma sum_toNat_cast :
    ∀ (entries : List (Int × Int)), (∀ e ∈ entries, 0 ≤ e.2) →
      (((entries.map (fun e => (e.2 + 1).toNat)).sum : Nat) : Int)
        = (entries.map (fun e => e.2 + 1)).sum := by
  intro entries
  induction entries with
  | nil => intro _; simp
  | cons e rest ih =>
      intro hv
      have he : 0 ≤ e.2 := hv e (List.mem_cons_self _ _)
      have hr := ih fun x hx => hv x (List.mem_cons_of_mem _ hx)
      simp only [List.map_cons, List.sum_cons, Nat.cast_add]
      rw [hr, Int.toNat_of_nonneg (show (0 : Int) ≤ e.2 + 1 by omega)]

/-- Claim C2: for valid timeline entries (`d > 0`, `r ≥ 0`) the expanded
timestamp sequence has length `Σ (r+1)`, is non-decreasing, starts at 0,
and is produced by the running clock: each emission appends the clock
then advances it by `d`, entries in document order. -/
theorem timeline_expansion (entries : List (Int × Int))
    (hvalid : ∀ e ∈ entries, 0 < e.1 ∧ 0 ≤ e.2) :
    ((expandTimeline entries).length : Int) = (entries.map (fun e => e.2 + 1)).sum
    ∧ List.Chain' (· ≤ ·) (expandTimeline entries)
    ∧ (entries ≠ [] → (expandTimeline entries).head? = some 0)
    ∧ (∀ (t d : Int) (k : Nat), emitEntry t d (k + 1) = t :: emitEntry (t + d) d k)
    ∧ (∀ (t d r : Int) (rest : List (Int × Int)),
        expandFrom t ((d, r) :: rest)
          = emitEntry t d (r + 1).toNat ++ expandFrom (t + ((r + 1).toNat : Int) * d) rest) := by
  refine ⟨?_, expandFrom_chain entries 0 hvalid, ?_, fun _ _ _ => rfl, fun _ _ _ _ => rfl⟩
  · rw [expandTimeline, expandFrom_length]
    exact sum_toNat_cast entries fun e he => (hvalid e he).2
  · intro hne
    cases entries with
    | nil => exact absurd rfl hne
    | cons e rest =>
        obtain ⟨d, r⟩ := e
        have hr : 0 ≤ r := (hvalid (d, r) (List.mem_cons_self _ _)).2
        obtain ⟨m, hm⟩ : ∃ m, (r + 1).toNat = m + 1 := ⟨(r + 1).toNat - 1, by omega⟩
        rw [expandTimeline, expandFrom, hm]
        rfl

/-- Witness for C2 at the concrete entry list `[(d=4, r=2)]`, whose
expansion is `[0, 4, 8]`. -/
theorem timeline_expansion_witness :
    List.Chain' (· ≤ ·) (expandTimeline [((4 : Int), (2 : Int))])
    ∧ expandTimeline [((4 : Int), (2 : Int))] = [0, 4, 8] :=
  ⟨(timeline_expansion [((4 : Int), (2 : Int))] (by decide)).2.1, by decide⟩

/-- Counterexample to C9 as stated: a zero-duration entry and a
negative-repeat entry are not rejected — expansion is total and simply
produces a timestamp sequence (`[0,0,0]`, resp. `[]`); no
DocumentStructureError exists in the code. -/
theorem timeline_validation_counterexample :
    expandTimeline [((0 : Int), (2 : Int))] = [0, 0, 0]
    ∧ expandTimeline [((5 : Int), (-1 : Int))] = [] := by
  decide

/-- Claim C9 (corrected): no validation is performed on timeline
entries: a zero-duration entry contributes `r+1` copies of the current
clock, a negative-repeat entry contributes nothing (and leaves the clock
unchanged), and expansion always yields a sequence of length
`Σ max(r+1, 0)`. -/
theorem timeline_validation_amended (d r : Int) (rest : List (Int × Int)) :
    (0 ≤ r →
      expandTimeline ((0, r) :: rest) = List.replicate (r + 1).toNat 0 ++ expandTimeline rest)
    ∧ (r < 0 → expandTimeline ((d, r) :: rest) = expandTimeline rest)
    ∧ (expandTimeline ((d, r) :: rest)).length
        = (((d, r) :: rest).map (fun e => (e.2 + 1).toNat)).sum := by
  refine ⟨fun _ => ?_, fun hr => ?_, ?_⟩
  · rw [expandTimeline, expandFrom, emitEntry_zero_duration]
    simp [expandTimeline]
  · have h0 : (r + 1).toNat = 0 := by omega
    rw [expandTimeline, expandFrom, h0]
    simp [expandTimeline, emitEntry]
  · rw [expandTimeline, expandFrom_length]

/-- Witness for the corrected C9: a negative-repeat entry is skipped. -/
theorem timeline_validation_witness :
    expandTimeline [((5 : Int), (-1 : Int))] = expandTimeline [] :=
  (timeline_validation_amended 5 (-1) []).2.1 (by decide)

/-! ## Decryptor lemmas -/

lemma toBlocksAux_spec :
    ∀ (fuel : Nat) (l : List Nat) (bs : List (List Nat)),
      l.length ≤ fuel → toBlocksAux fuel l = some bs →
        bs.flatten = l ∧ ∀ b ∈ bs, b.length = 16 := by
  intro fuel
  induction fuel with
  | zero =>
      intro l bs hl hb
      cases l with
      | nil =>
          simp only [toBlocksAux, Option.some.injEq] at hb
          subst hb
          simp
      | cons a l' => simp at hl
  | succ fuel ih =>
      intro l bs hl hb
      cases l with
      | nil =>
          simp only [toBlocksAux, Option.some.injEq] at hb
          subst hb
          simp
      | cons a l' =>
          simp only [toBlocksAux] at hb
          by_cases h16 : 16 ≤ (a :: l').length
          · rw [if_pos h16] at hb
            rcases Option.map_eq_some'.mp hb with ⟨bs', hbs', rfl⟩
            have hdl : ((a :: l').drop 16).length ≤ fuel := by
              simp only [List.length_drop]
              simp only [List.length_cons] at hl ⊢
              omega
            obtain ⟨hflat, hlen⟩ := ih _ bs' hdl hbs'
            constructor
            · rw [List.flatten_cons, hflat, List.take_append_drop]
            · intro b hbmem
              rcases List.mem_cons.mp hbmem with rfl | hbmem
              · simp only [List.length_take]
                omega
              · exact hlen b hbmem
          · rw [if_neg h16] at hb
            exact absurd hb (by simp)

lemma toBlocks_spec (data : List Nat) (bs : List (List Nat)) (h : toBlocks data = some bs) :
    bs.flatten = data ∧ ∀ b ∈ bs, b.length = 16 :=
  toBlocksAux_spec data.length data bs le_rfl h

lemma toBlocksAux_of_blocks :
    ∀ (bs : List (List Nat)), (∀ b ∈ bs, b.length = 16) →
      ∀ (fuel : Nat), bs.flatten.length ≤ fuel → toBlocksAux fuel bs.flatten = some bs := by
  intro bs
  induction bs with
  | nil => intro _ fuel _; cases fuel <;> rfl
  | cons b rest ih =>
      intro h16 fuel hfuel
      have hb : b.length = 16 := h16 b (List.mem_cons_self _ _)
      have hrest : ∀ x ∈ rest, x.length = 16 := fun x hx => h16 x (List.mem_cons_of_mem _ hx)
      have hflen : (b :: rest).flatten.length = 16 + rest.flatten.length := by
        simp [List.flatten_cons, hb]
      cases fuel with
      | zero => omega
      | succ fuel =>
          obtain ⟨hd, tl, hbshape⟩ : ∃ hd tl, b = hd :: tl := by
            cases b with
            | nil => simp at hb
            | cons hd tl => exact ⟨hd, tl, rfl⟩
          have hshape : (b :: rest).flatten = hd :: (tl ++ rest.flatten) := by
            simp [List.flatten_cons, hbshape]
          rw [hshape]
          have hlen16 : 16 ≤ (hd :: (tl ++ rest.flatten)).length := by
            rw [← hshape, hflen]
            omega
          simp only [toBlocksAux, if_pos hlen16]
          have hdrop : (hd :: (tl ++ rest.flatten)).drop 16 = rest.flatten := by
            rw [← hshape, ← hb]
            have : (b :: rest).flatten = b ++ rest.flatten := by simp [List.flatten_cons]
            rw [this]
            exact List.drop_left b rest.flatten
          have htake : (hd :: (tl ++ rest.flatten)).take 16 = b := by
            rw [← hshape, ← hb]
            have : (b :: rest).flatten = b ++ rest.flatten := by simp [List.flatten_cons]
            rw [this]
            exact List.take_left b rest.flatten
          have hfl : rest.flatten.length ≤ fuel := by omega
          rw [hdrop, htake, ih hrest fuel hfl]
          rfl

lemma toBlocks_of_blocks (bs : List (List Nat)) (h16 : ∀ b ∈ bs, b.length = 16) :
    toBlocks bs.flatten = some bs :=
  toBlocksAux_of_blocks bs h16 bs.flatten.length le_rfl

lemma toBlocksAux_total :
    ∀ (fuel : Nat) (l : List Nat), l.length ≤ fuel → l.length % 16 = 0 →
      ∃ bs, toBlocksAux fuel l = some bs := by
  intro fuel
  induction fuel with
  | zero =>
      intro l hl _
      cases l with
      | nil => exact ⟨[], rfl⟩
      | cons a l' => simp at hl
  | succ fuel ih =>
      intro l hl hmod
      cases l with
      | nil => exact ⟨[], rfl⟩
      | cons a l' =>
          have h16 : 16 ≤ (a :: l').length := by
            simp only [List.length_cons] at hmod ⊢
            omega
          have hdl : ((a :: l').drop 16).length ≤ fuel := by
            simp only [List.length_drop]
            simp only [List.length_cons] at hl ⊢
            omega
          have hdm : ((a :: l').drop 16).length % 16 = 0 := by
            simp only [List.length_drop]
            simp only [List.length_cons] at hmod h16 ⊢
            omega
          obtain ⟨bs', hbs'⟩ := ih _ hdl hdm
          exact ⟨(a :: l').take 16 :: bs', by simp only [toBlocksAux, if_pos h16, hbs']; rfl⟩

lemma zipWith_xor_length (a b : List Nat) :
    (List.zipWith Nat.xor a b).length = min a.length b.length := by
  simp [List.length_zipWith]

lemma zipWith_xor_cancel :
    ∀ (a b : List Nat), a.length ≤ b.length →
      List.zipWith Nat.xor (List.zipWith Nat.xor a b) b = a := by
  intro a
  induction a with
  | nil => intro b _; simp
  | cons x a' ih =>
      intro b hab
      cases b with
      | nil => simp at hab
      | cons y b' =>
          simp only [List.zipWith_cons_cons, List.cons.injEq]
          refine ⟨?_, ih b' (by simpa using hab)⟩
          show x ^^^ y ^^^ y = x
          rw [Nat.xor_assoc, Nat.xor_self, Nat.xor_zero]

lemma cbcDecryptFrom_lengths (D : List Nat → List Nat) (hD : ∀ c, (D c).length = 16) :
    ∀ (cs : List (List Nat)) (prev : List Nat), prev.length = 16 →
      (∀ c ∈ cs, c.length = 16) →
      ∀ p ∈ cbcDecryptFrom D prev cs, p.length = 16 := by
  intro cs
  induction cs with
  | nil => intro prev _ _ p hp; simp [cbcDecryptFrom] at hp
  | cons c cs' ih =>
      intro prev hprev hcs p hp
      have hc : c.length = 16 := hcs c (List.mem_cons_self _ _)
      rcases List.mem_cons.mp hp with rfl | hp
      · rw [zipWith_xor_length, hD, hprev]
        exact min_self 16
      · exact ih c hc (fun x hx => hcs x (List.mem_cons_of_mem _ hx)) p hp

lemma cbcEncryptFrom_lengths (E : List Nat → List Nat) (hE : ∀ x, (E x).length = 16) :
    ∀ (bs : List (List Nat)) (prev : List Nat), ∀ c ∈ cbcEncryptFrom E prev bs, c.length = 16 := by
  intro bs
  induction bs with
  | nil => intro prev c hc; simp [cbcEncryptFrom] at hc
  | cons b bs' ih =>
      intro prev c hc
      rcases List.mem_cons.mp hc with rfl | hc
      · exact hE _
      · exact ih _ c hc

lemma cbc_roundtrip (E D : List Nat → List Nat)
    (hED : ∀ x, x.length = 16 → D (E x) = x) (hE : ∀ x, (E x).length = 16) :
    ∀ (bs : List (List Nat)) (prev : List Nat), prev.length = 16 →
      (∀ b ∈ bs, b.length = 16) →
      cbcDecryptFrom D prev (cbcEncryptFrom E prev bs) = bs := by
  intro bs
  induction bs with
  | nil => intro prev _ _; rfl
  | cons b bs' ih =>
      intro prev hprev hbs
      have hb : b.length = 16 := hbs b (List.mem_cons_self _ _)
      have hxlen : (List.zipWith Nat.xor b prev).length = 16 := by
        rw [zipWith_xor_length, hb, hprev]; rfl
      simp only [cbcEncryptFrom, cbcDecryptFrom, List.cons.injEq]
      constructor
      · rw [hED _ hxlen]
        exact zipWith_xor_cancel b prev (by omega)
      · exact ih _ (hE _) fun x hx => hbs x (List.mem_cons_of_mem _ hx)

lemma flatten_length_16 :
    ∀ (bs : List (List Nat)), (∀ b ∈ bs, b.length = 16) →
      bs.flatten.length = 16 * bs.length := by
  intro bs
  induction bs with
  | nil => intro _; simp
  | cons b bs' ih =>
      intro h16
      have hb : b.length = 16 := h16 b (List.mem_cons_self _ _)
      simp only [List.flatten_cons, List.length_append, List.length_cons,
        ih fun x hx => h16 x (List.mem_cons_of_mem _ hx), hb]
      ring

lemma unpad_pass (result : List Nat) (p : Nat) (hp : result.getLast? = some p)
    (hcond : 1 ≤ p ∧ p ≤ 16 ∧ ∀ b ∈ result.drop (result.length - p), b = p) :
    unpad result = result.take (result.length - p) := by
  unfold unpad
  rw [hp]
  exact if_pos hcond

lemma unpad_fail (result : List Nat) (p : Nat) (hp : result.getLast? = some p)
    (hcond : ¬(1 ≤ p ∧ p ≤ 16 ∧ ∀ b ∈ result.drop (result.length - p), b = p)) :
    unpad result = result := by
  unfold unpad
  rw [hp]
  exact if_neg hcond

lemma unpad_append_replicate (pt : List Nat) (p : Nat) (h1 : 1 ≤ p) (h16 : p ≤ 16) :
    unpad (pt ++ List.replicate p p) = pt := by
  have hrep : (List.replicate p p : List Nat) ≠ [] := by
    simp [List.replicate_eq_nil_iff]
    omega
  have hlast : (pt ++ List.replicate p p).getLast? = some p := by
    rw [List.getLast?_append_of_ne_nil pt hrep]
    obtain ⟨m, hm⟩ : ∃ m, p = m + 1 := ⟨p - 1, by omega⟩
    rw [hm, List.replicate_succ']
    simp
  have hlen : (pt ++ List.replicate p p).length - p = pt.length := by
    simp
  have hdrop : (pt ++ List.replicate p p).drop pt.length = List.replicate p p :=
    List.drop_left pt (List.replicate p p)
  rw [unpad_pass _ p hlast]
  · rw [hlen]
    exact List.take_left pt (List.replicate p p)
  · refine ⟨h1, h16, ?_⟩
    rw [hlen, hdrop]
    intro b hb
    exact List.eq_of_mem_replicate hb

lemma pkcs7pad_mod (pt : List Nat) : (pkcs7pad pt).length % 16 = 0 := by
  simp only [pkcs7pad, List.length_append, List.length_replicate]
  omega

lemma unpad_pkcs7pad (pt : List Nat) : unpad (pkcs7pad pt) = pt := by
  have h1 : 1 ≤ 16 - pt.length % 16 := by omega
  have h2 : 16 - pt.length % 16 ≤ 16 := by omega
  exact unpad_append_replicate pt _ h1 h2

lemma idBlock_len (x : List Nat) : (idBlock x).length = 16 := by
  simp only [idBlock, List.length_take, List.length_append, List.length_replicate]
  omega

lemma idBlock_id (x : List Nat) (h : x.length = 16) : idBlock x = x := by
  have htl := List.take_left x (List.replicate 16 0)
  rw [h] at htl
  exact htl

/-- Claim C3: any input whose CBC decryption yields bytes whose final
byte `p` is not in `[1,16]`, or whose last `p` bytes are not all `p`, is
returned unmodified by the Decryptor — no exception, no truncation; when
the check passes, exactly the last `p` bytes are removed. -/
theorem decrypt_padding_check (D : List Nat → List Nat) (iv data : List Nat)
    (bs : List (List Nat)) (p : Nat)
    (hD : ∀ c, (D c).length = 16) (hiv : iv.length = 16)
    (hb : toBlocks data = some bs)
    (hp : ((cbcDecrypt D iv bs).flatten).getLast? = some p) :
    ((¬(1 ≤ p ∧ p ≤ 16)
        ∨ ¬(∀ b ∈ (cbcDecrypt D iv bs).flatten.drop
              ((cbcDecrypt D iv bs).flatten.length - p), b = p)) →
      pyDecrypt D iv data = some ((cbcDecrypt D iv bs).flatten))
    ∧ ((1 ≤ p ∧ p ≤ 16
        ∧ ∀ b ∈ (cbcDecrypt D iv bs).flatten.drop
            ((cbcDecrypt D iv bs).flatten.length - p), b = p) →
      pyDecrypt D iv data
          = some ((cbcDecrypt D iv bs).flatten.take
              ((cbcDecrypt D iv bs).flatten.length - p))
        ∧ ((cbcDecrypt D iv bs).flatten.drop
            ((cbcDecrypt D iv bs).flatten.length - p)).length = p) := by
  have hpy : pyDecrypt D iv data = some (unpad ((cbcDecrypt D iv bs).flatten)) := by
    simp [pyDecrypt, hb]
  constructor
  · intro hfail
    rw [hpy, unpad_fail _ p hp ?_]
    rcases hfail with hfail | hfail
    · exact fun hc => hfail ⟨hc.1, hc.2.1⟩
    · exact fun hc => hfail hc.2.2
  · intro hpass
    obtain ⟨h1, h16', hall⟩ := hpass
    have hblocks16 : ∀ x ∈ cbcDecrypt D iv bs, x.length = 16 :=
      cbcDecryptFrom_lengths D hD bs iv hiv (toBlocks_spec data bs hb).2
    have hrl : (cbcDecrypt D iv bs).flatten.length = 16 * (cbcDecrypt D iv bs).length :=
      flatten_length_16 _ hblocks16
    have hne : (cbcDecrypt D iv bs).flatten ≠ [] := by
      intro h
      rw [h] at hp
      simp at hp
    have hlen16 : 16 ≤ (cbcDecrypt D iv bs).flatten.length := by
      rcases Nat.eq_zero_or_pos (cbcDecrypt D iv bs).length with h0 | hpos
      · rw [h0, Nat.mul_zero] at hrl
        exact absurd (List.eq_nil_of_length_eq_zero hrl) hne
      · omega
    refine ⟨?_, ?_⟩
    · rw [hpy, unpad_pass _ p hp ⟨h1, h16', hall⟩]
    · rw [List.length_drop]
      omega

/-- Witness for C3 at a concrete input: one ciphertext block whose
decryption is sixteen bytes `5`; the padding check passes with `p = 5`
and exactly the last five bytes are removed. -/
theorem decrypt_padding_check_witness :
    pyDecrypt (fun _ => List.replicate 16 5) (List.replicate 16 0) (List.replicate 16 9)
      = some (List.replicate 11 5) := by
  have h := (decrypt_padding_check (fun _ => List.replicate 16 5) (List.replicate 16 0)
      (List.replicate 16 9) [List.replicate 16 9] 5
      (fun c => by simp) (by simp) (by decide) (by decide)).2 (by decide)
  exact h.1.trans (by decide)

/-- Claim C6: for every plaintext, any block cipher whose encryption and
decryption are 16-byte-block inverses (as AES-128 under a 16-byte key
is), and every 16-byte IV, PKCS7-padding then CBC-encrypting and then
applying the Decryptor reproduces the plaintext exactly. -/
theorem decrypt_roundtrip (E D : List Nat → List Nat) (pt iv : List Nat)
    (hED : ∀ x, x.length = 16 → D (E x) = x)
    (hE : ∀ x, (E x).length = 16)
    (hiv : iv.length = 16) :
    ∃ ct, encryptPipeline E iv pt = some ct ∧ pyDecrypt D iv ct = some pt := by
  obtain ⟨pbs, hpbs⟩ :=
    toBlocksAux_total (pkcs7pad pt).length (pkcs7pad pt) le_rfl (pkcs7pad_mod pt)
  have hpbs' : toBlocks (pkcs7pad pt) = some pbs := hpbs
  obtain ⟨hflat, hlen16⟩ := toBlocks_spec _ _ hpbs'
  have hclens : ∀ c ∈ cbcEncrypt E iv pbs, c.length = 16 := cbcEncryptFrom_lengths E hE pbs iv
  refine ⟨(cbcEncrypt E iv pbs).flatten, ?_, ?_⟩
  · simp [encryptPipeline, hpbs']
  · have htb : toBlocks (cbcEncrypt E iv pbs).flatten = some (cbcEncrypt E iv pbs) :=
      toBlocks_of_blocks _ hclens
    have hdec : cbcDecrypt D iv (cbcEncrypt E iv pbs) = pbs :=
      cbc_roundtrip E D hED hE pbs iv hiv hlen16
    simp only [pyDecrypt, htb, Option.map_some']
    rw [show cbcDecrypt D iv (cbcEncrypt E iv pbs) = pbs from hdec, hflat, unpad_pkcs7pad]

/-- Witness for C6: the identity block cipher on 16-byte blocks, zero
IV, plaintext `[1, 2, 3]`. -/
theorem decrypt_roundtrip_witness :
    ∃ ct, encryptPipeline idBlock (List.replicate 16 0) [1, 2, 3] = some ct
      ∧ pyDecrypt idBlock (List.replicate 16 0) ct = some [1, 2, 3] :=
  decrypt_roundtrip idBlock idBlock [1, 2, 3] (List.replicate 16 0)
    (fun x hx => by rw [idBlock_id x hx, idBlock_id x hx])
    idBlock_len
    (by simp)

/-! ## IV resolution lemmas -/

lemma hexVal_ws (c : Char) (h : isPyWS c = true) : hexVal c = none := by
  simp only [isPyWS, Bool.or_eq_true, beq_iff_eq] at h
  rcases h with ((((h | h) | h) | h) | h) | h <;> subst h <;> decide

lemma fromHexPairs_length :
    ∀ (n : Nat) (l : List Char) (bs : List Nat), l.length ≤ n →
      fromHexPairs l = some bs →
      2 * bs.length = (l.filter (fun c => !(isPyWS c))).length := by
  intro n
  induction n with
  | zero =>
      intro l bs hl hb
      cases l with
      | nil =>
          simp only [fromHexPairs, Option.some.injEq] at hb
          subst hb
          simp
      | cons c rest => simp at hl
  | succ n ih =>
      intro l bs hl hb
      cases l with
      | nil =>
          simp only [fromHexPairs, Option.some.injEq] at hb
          subst hb
          simp
      | cons c rest =>
          unfold fromHexPairs at hb
          by_cases hc : isPyWS c = true
          · rw [if_pos hc] at hb
            have := ih rest bs (by simp at hl; omega) hb
            simpa [List.filter_cons, hc] using this
          · rw [if_neg hc] at hb
            split at hb
            · simp at hb
            · split at hb
              · rename_i c2 rest2 x1 x2 x3 hi lo bs2 h1 h2 h3
                simp only [Option.some.injEq] at hb
                subst hb
                have hc2b : isPyWS c2 = false := by
                  cases hws : isPyWS c2 with
                  | false => rfl
                  | true => rw [hexVal_ws c2 hws] at h2; exact absurd h2 (by simp)
                have hcb : isPyWS c = false := by
                  cases hws : isPyWS c with
                  | false => rfl
                  | true => exact absurd hws hc
                have hlen : rest2.length ≤ n := by simp at hl; omega
                have hrec := ih rest2 bs2 hlen h3
                simp [List.filter_cons, hcb, hc2b]
                omega
              · simp at hb

/-- Counterexample to C7 as stated: when the encryption descriptor
(`ContentProtection`/`CryptoPeriod`) is absent, `iv_hex` is the empty
string, so the resolved IV is the empty byte string, not 16 zero
bytes. -/
theorem iv_resolution_counterexample :
    resolveIV none = some [] ∧ resolveIV none ≠ some (List.replicate 16 0) := by
  constructor
  · decide
  · decide

/-- Claim C7 (corrected): with the `CryptoPeriod` present but its `IV`
attribute absent, the IV defaults to 16 zero bytes; with the descriptor
absent entirely, the IV resolves to the empty byte string; with an `IV`
attribute present, the IV is the hex-decode of the attribute after
removing `"0x"` occurrences, yielding one byte per two non-whitespace
hex characters (hence exactly 16 bytes only for 32 hex digits). -/
theorem iv_resolution_amended (s : String) (bs : List Nat) :
    resolveIV (some none) = some (List.replicate 16 0)
    ∧ resolveIV none = some []
    ∧ resolveIV (some (some s)) = fromHexPairs (strip0x s.data)
    ∧ (fromHexPairs (strip0x s.data) = some bs →
        2 * bs.length = ((strip0x s.data).filter (fun c => !(isPyWS c))).length) := by
  refine ⟨by decide, by decide, rfl, fun h => ?_⟩
  exact fromHexPairs_length (strip0x s.data).length (strip0x s.data) bs le_rfl h

/-- Witness for the corrected C7: a 34-character attribute
`"0x" ++ 32 hex digits` resolves to exactly 16 bytes. -/
theorem iv_resolution_witness :
    2 * ([1, 2, 3, 4, 5, 6, 7, 8, 9, 10, 11, 12, 13, 14, 15, 16] : List Nat).length
      = ((strip0x ("0x0102030405060708090a0b0c0d0e0f10").data).filter
          (fun c => !(isPyWS c))).length :=
  (iv_resolution_amended "0x0102030405060708090a0b0c0d0e0f10"
      [1, 2, 3, 4, 5, 6, 7, 8, 9, 10, 11, 12, 13, 14, 15, 16]).2.2.2 (by decide)

/-! ## Track selection lemmas -/

lemma isOrig_iff (a : AdaptationSet) :
    isOrig a = true ↔ (a.contentType = "audio" ∧ pyLabel a = some "OriginalAudio") := by
  simp [isOrig]

lemma selectStep_nonaudio (acc : Option AdaptationSet) (a : AdaptationSet)
    (h : ¬(a.contentType = "audio")) : selectStep acc a = acc := by
  unfold selectStep
  rw [if_pos h]

lemma selectStep_audio_orig (acc : Option AdaptationSet) (a : AdaptationSet)
    (ha : a.contentType = "audio") (hl : pyLabel a = some "OriginalAudio") :
    selectStep acc a = some a := by
  unfold selectStep
  rw [if_neg (not_not_intro ha)]
  cases acc with
  | none => rfl
  | some prev =>
      show (if pyLabel a = some "OriginalAudio" then some a else some prev) = some a
      rw [if_pos hl]

lemma selectStep_first (a : AdaptationSet) (ha : a.contentType = "audio") :
    selectStep none a = some a := by
  unfold selectStep
  rw [if_neg (not_not_intro ha)]

lemma foldl_selectStep_keep :
    ∀ (sets : List AdaptationSet) (x : AdaptationSet),
      (∀ a ∈ sets, a.contentType = "audio" → pyLabel a ≠ some "OriginalAudio") →
      sets.foldl selectStep (some x) = some x := by
  intro sets
  induction sets with
  | nil => intro x _; rfl
  | cons a rest ih =>
      intro x h
      have hstep : selectStep (some x) a = some x := by
        by_cases ha : a.contentType = "audio"
        · unfold selectStep
          rw [if_neg (not_not_intro ha)]
          show (if pyLabel a = some "OriginalAudio" then some a else some x) = some x
          rw [if_neg (h a (List.mem_cons_self _ _) ha)]
        · exact selectStep_nonaudio _ a ha
      rw [List.foldl_cons, hstep]
      exact ih x fun b hb => h b (List.mem_cons_of_mem _ hb)

lemma foldl_selectStep_nonaudio :
    ∀ (sets : List AdaptationSet) (acc : Option AdaptationSet),
      (∀ a ∈ sets, ¬(a.contentType = "audio")) →
      sets.foldl selectStep acc = acc := by
  intro sets
  induction sets with
  | nil => intro acc _; rfl
  | cons a rest ih =>
      intro acc h
      rw [List.foldl_cons, selectStep_nonaudio acc a (h a (List.mem_cons_self _ _))]
      exact ih acc fun b hb => h b (List.mem_cons_of_mem _ hb)

lemma foldl_selectStep_find :
    ∀ (sets : List AdaptationSet) (a0 : AdaptationSet),
      sets.find? (fun a => a.contentType == "audio") = some a0 →
      (∀ a ∈ sets, a.contentType = "audio" → pyLabel a ≠ some "OriginalAudio") →
      sets.foldl selectStep none = some a0 := by
  intro sets
  induction sets with
  | nil => intro a0 hf; simp at hf
  | cons a rest ih =>
      intro a0 hf h
      by_cases ha : a.contentType = "audio"
      · rw [List.find?_cons_of_pos _ (by simp [ha])] at hf
        injection hf with hf
        subst hf
        rw [List.foldl_cons, selectStep_first a ha]
        exact foldl_selectStep_keep rest a fun b hb => h b (List.mem_cons_of_mem _ hb)
      · rw [List.find?_cons_of_neg _ (by simp [ha])] at hf
        rw [List.foldl_cons, selectStep_nonaudio none a ha]
        exact ih a0 hf fun b hb => h b (List.mem_cons_of_mem _ hb)

lemma foldl_selectStep_orig :
    ∀ (sets : List AdaptationSet), sets.filter isOrig ≠ [] →
      ∀ acc, sets.foldl selectStep acc = (sets.filter isOrig).getLast? := by
  intro sets
  induction sets with
  | nil => intro h; exact absurd rfl h
  | cons a rest ih =>
      intro hne acc
      by_cases hra : isOrig a = true
      · obtain ⟨ha, hl⟩ := (isOrig_iff a).mp hra
        rw [List.foldl_cons, selectStep_audio_orig acc a ha hl]
        by_cases hro : rest.filter isOrig = []
        · have hnone : ∀ b ∈ rest, b.contentType = "audio" → pyLabel b ≠ some "OriginalAudio" := by
            intro b hb hab hlb
            exact (List.filter_eq_nil_iff.mp hro b hb) ((isOrig_iff b).mpr ⟨hab, hlb⟩)
          rw [foldl_selectStep_keep rest a hnone, List.filter_cons_of_pos hra, hro]
          rfl
        · rw [ih hro (some a), List.filter_cons_of_pos hra]
          cases hfr : rest.filter isOrig with
          | nil => exact absurd hfr hro
          | cons f fs => rw [List.getLast?_cons_cons]
      · have hfe : (a :: rest).filter isOrig = rest.filter isOrig :=
          List.filter_cons_of_neg (by simp [hra])
        have hro : rest.filter isOrig ≠ [] := by
          rw [hfe] at hne
          exact hne
        rw [List.foldl_cons, hfe, ih hro (selectStep acc a)]

/-- Claim C5: selection keeps only `contentType == "audio"` sets; an
audio set labeled exactly `"OriginalAudio"` replaces any previously
selected candidate regardless of document order; with no such label the
first audio set in document order is kept; with no audio set at all
selection yields `none`, the fatal no-audio-track failure path. -/
theorem track_selection (sets : List AdaptationSet) (a0 : AdaptationSet) :
    ((∀ a ∈ sets, ¬(a.contentType = "audio")) → selectTrack sets = none)
    ∧ (sets.find? (fun a => a.contentType == "audio") = some a0 →
        (∀ a ∈ sets, a.contentType = "audio" → pyLabel a ≠ some "OriginalAudio") →
        selectTrack sets = some a0)
    ∧ ((∃ a ∈ sets, a.contentType = "audio" ∧ pyLabel a = some "OriginalAudio") →
        ∃ b, selectTrack sets = some b
          ∧ b.contentType = "audio" ∧ pyLabel b = some "OriginalAudio") := by
  refine ⟨fun h => foldl_selectStep_nonaudio sets none h,
    fun hf h => foldl_selectStep_find sets a0 hf h, fun hex => ?_⟩
  obtain ⟨a, ha, hab, hlb⟩ := hex
  have hmem : a ∈ sets.filter isOrig :=
    List.mem_filter.mpr ⟨ha, (isOrig_iff a).mpr ⟨hab, hlb⟩⟩
  have hne : sets.filter isOrig ≠ [] := List.ne_nil_of_mem hmem
  have hsel : selectTrack sets = (sets.filter isOrig).getLast? :=
    foldl_selectStep_orig sets hne none
  have hgl : (sets.filter isOrig).getLast? = some ((sets.filter isOrig).getLast hne) :=
    List.getLast?_eq_getLast _ hne
  have hmem' : (sets.filter isOrig).getLast hne ∈ sets.filter isOrig := List.getLast_mem hne
  have hprops := (isOrig_iff _).mp (List.mem_filter.mp hmem').2
  exact ⟨_, hsel.trans hgl, hprops.1, hprops.2⟩

/-- Witness for C5: a video set followed by a generically labeled audio
set; the first audio set is selected. -/
theorem track_selection_witness :
    selectTrack [⟨"video", none⟩, ⟨"audio", some (some "X")⟩]
      = some ⟨"audio", some (some "X")⟩ :=
  (track_selection [⟨"video", none⟩, ⟨"audio", some (some "X")⟩]
      ⟨"audio", some (some "X")⟩).2.1 (by decide) (by decide)

/-- Claim C10: with several audio sets labeled `"OriginalAudio"`, the
last one in document order is selected (each later one overwrites the
candidate); an audio set with no `Label` element gets the label
`"audio"` and is still eligible to be kept as the first candidate. -/
theorem track_selection_last_original (sets : List AdaptationSet) (a : AdaptationSet)
    (rest : List AdaptationSet) :
    (sets.filter isOrig ≠ [] → selectTrack sets = (sets.filter isOrig).getLast?)
    ∧ (a.contentType = "audio" → a.labelEl = none →
        pyLabel a = some "audio"
        ∧ ((∀ b ∈ rest, isOrig b = false) → selectTrack (a :: rest) = some a)) := by
  refine ⟨fun h => foldl_selectStep_orig sets h none, fun ha hl => ⟨?_, fun hno => ?_⟩⟩
  · simp [pyLabel, hl]
  · have hstep : selectTrack (a :: rest) = rest.foldl selectStep (some a) := by
      unfold selectTrack
      rw [List.foldl_cons, selectStep_first a ha]
    rw [hstep]
    refine foldl_selectStep_keep rest a fun b hb hab hlb => ?_
    have : isOrig b = true := (isOrig_iff b).mpr ⟨hab, hlb⟩
    rw [hno b hb] at this
    exact Bool.false_ne_true this

/-- Witness for C10: two audio sets both labeled `"OriginalAudio"`; the
selected one is the last element of the filtered list, i.e. the second
set. -/
theorem track_selection_last_original_witness :
    selectTrack [⟨"audio", some (some "OriginalAudio")⟩, ⟨"audio", some (some "OriginalAudio")⟩]
      = ([⟨"audio", some (some "OriginalAudio")⟩,
          (⟨"audio", some (some "OriginalAudio")⟩ : AdaptationSet)].filter isOrig).getLast? :=
  (track_selection_last_original
      [⟨"audio", some (some "OriginalAudio")⟩, ⟨"audio", some (some "OriginalAudio")⟩]
      ⟨"audio", none⟩ []).1 (by decide)

/-! ## Segment fetcher lemmas -/

lemma fetchGo_transport (att : Nat → AttemptOutcome) (dec : List Nat → List Nat)
    (remaining attempt slept : Nat) (h : att attempt = .transportError) :
    fetchGo att dec (remaining + 1) attempt slept
      = fetchGo att dec remaining (attempt + 1) (if attempt < 2 then slept + 1 else slept) := by
  rw [show fetchGo att dec (remaining + 1) attempt slept
      = match att attempt with
        | .transportError =>
            fetchGo att dec remaining (attempt + 1) (if attempt < 2 then slept + 1 else slept)
        | .response status body =>
            if status = 200 then ⟨some (dec body), attempt + 1, slept⟩
            else fetchGo att dec remaining (attempt + 1) slept
      from rfl, h]

lemma fetchGo_response (att : Nat → AttemptOutcome) (dec : List Nat → List Nat)
    (remaining attempt slept s : Nat) (b : List Nat) (h : att attempt = .response s b) :
    fetchGo att dec (remaining + 1) attempt slept
      = if s = 200 then ⟨some (dec b), attempt + 1, slept⟩
        else fetchGo att dec remaining (attempt + 1) slept := by
  rw [show fetchGo att dec (remaining + 1) attempt slept
      = match att attempt with
        | .transportError =>
            fetchGo att dec remaining (attempt + 1) (if attempt < 2 then slept + 1 else slept)
        | .response status body =>
            if status = 200 then ⟨some (dec body), attempt + 1, slept⟩
            else fetchGo att dec remaining (attempt + 1) slept
      from rfl, h]

lemma fetchGo_attempts_le (att : Nat → AttemptOutcome) (dec : List Nat → List Nat) :
    ∀ (fuel attempt slept : Nat),
      (fetchGo att dec fuel attempt slept).attemptsMade ≤ attempt + fuel := by
  intro fuel
  induction fuel with
  | zero => intro attempt slept; simp [fetchGo]
  | succ n ih =>
      intro attempt slept
      rcases ha : att attempt with _ | ⟨s, b⟩
      · rw [fetchGo_transport att dec n attempt slept ha]
        have := ih (attempt + 1) (if attempt < 2 then slept + 1 else slept)
        omega
      · rw [fetchGo_response att dec n attempt slept s b ha]
        by_cases hs : s = 200
        · rw [if_pos hs]
          simp
        · rw [if_neg hs]
          have := ih (attempt + 1) slept
          omega

/-- An attempt that does not produce a 200 response leaves `fetchGo`
continuing with the next attempt; sleeps increase only for a transport
error before the last attempt. -/
lemma fetchGo_failed_step (att : Nat → AttemptOutcome) (dec : List Nat → List Nat)
    (remaining attempt slept : Nat) (h : attemptFailed (att attempt) = true) :
    (att attempt = .transportError →
      fetchGo att dec (remaining + 1) attempt slept
        = fetchGo att dec remaining (attempt + 1) (if attempt < 2 then slept + 1 else slept))
    ∧ (∀ s b, att attempt = .response s b →
        fetchGo att dec (remaining + 1) attempt slept
          = fetchGo att dec remaining (attempt + 1) slept) := by
  refine ⟨fun ht => fetchGo_transport att dec remaining attempt slept ht, fun s b hr => ?_⟩
  rw [fetchGo_response att dec remaining attempt slept s b hr]
  rw [hr] at h
  simp only [attemptFailed, bne_iff_ne, ne_eq] at h
  rw [if_neg h]

/-- Counterexample to C4 as stated: three non-200 responses exhaust the
three attempts with zero 1-second waits — the `asyncio.sleep(1)` sits in
the `except` branch only, so a non-200 response retries immediately;
the claim's per-failure wait would require 2 sleeps here. -/
theorem retry_policy_counterexample :
    (fetchSegment (fun _ => .response 404 []) id).result = none
    ∧ (fetchSegment (fun _ => .response 404 []) id).attemptsMade = 3
    ∧ (fetchSegment (fun _ => .response 404 []) id).sleeps = 0
    ∧ ¬((fetchSegment (fun _ => .response 404 []) id).sleeps = 2) := by
  refine ⟨?_, ?_, ?_, ?_⟩ <;> decide

/-- Claim C4 (corrected): at most 3 attempts per segment; the fetcher
waits 1 second only after a transport-error attempt that is not the
last (attempts 0 and 1), while a non-200 response retries immediately
with no wait; a segment succeeding on the third attempt returns its
decrypted body (so it is written by the assembler); after three failed
attempts the segment result is `None`; the session's surfaced success
flag is unaffected either way. -/
theorem retry_policy_amended (att : Nat → AttemptOutcome) (dec : List Nat → List Nat) :
    (fetchSegment att dec).attemptsMade ≤ 3
    ∧ (∀ b, attemptFailed (att 0) = true → attemptFailed (att 1) = true →
        att 2 = .response 200 b →
        (fetchSegment att dec).result = some (dec b)
          ∧ (fetchSegment att dec).attemptsMade = 3)
    ∧ (attemptFailed (att 0) = true → attemptFailed (att 1) = true →
        attemptFailed (att 2) = true → (fetchSegment att dec).result = none)
    ∧ (att 0 = .transportError → att 1 = .transportError →
        (fetchSegment att dec).sleeps = 2)
    ∧ ((∀ i, i < 3 → ∃ s b, att i = .response s b) → (fetchSegment att dec).sleeps = 0)
    ∧ (∀ (init : List Nat) (times : List Int) (fetch : Int → Option (List Nat)),
        (downloadOutcome init times fetch).2 = true) := by
  have hgo : fetchSegment att dec = fetchGo att dec 3 0 0 := rfl
  refine ⟨?_, ?_, ?_, ?_, ?_, fun _ _ _ => rfl⟩
  · rw [hgo]
    have := fetchGo_attempts_le att dec 3 0 0
    omega
  · -- fail, fail, then 200: the third attempt's value is returned
    intro b h0 h1 h2
    have step2 : ∀ slept, fetchGo att dec 1 2 slept = ⟨some (dec b), 3, slept⟩ := by
      intro slept
      rw [fetchGo_response att dec 0 2 slept 200 b h2, if_pos rfl]
    rcases ha0 : att 0 with _ | ⟨s0, b0⟩
    · rw [hgo, ((fetchGo_failed_step att dec 2 0 0 h0).1 ha0)]
      rcases ha1 : att 1 with _ | ⟨s1, b1⟩
      · rw [((fetchGo_failed_step att dec 1 1 _ h1).1 ha1), step2]
        exact ⟨rfl, rfl⟩
      · rw [((fetchGo_failed_step att dec 1 1 _ h1).2 s1 b1 ha1), step2]
        exact ⟨rfl, rfl⟩
    · rw [hgo, ((fetchGo_failed_step att dec 2 0 0 h0).2 s0 b0 ha0)]
      rcases ha1 : att 1 with _ | ⟨s1, b1⟩
      · rw [((fetchGo_failed_step att dec 1 1 _ h1).1 ha1), step2]
        exact ⟨rfl, rfl⟩
      · rw [((fetchGo_failed_step att dec 1 1 _ h1).2 s1 b1 ha1), step2]
        exact ⟨rfl, rfl⟩
  · -- three failures: result is None
    intro h0 h1 h2
    have step2 : ∀ slept, (fetchGo att dec 1 2 slept).result = none := by
      intro slept
      rcases ha2 : att 2 with _ | ⟨s2, b2⟩
      · rw [(fetchGo_failed_step att dec 0 2 slept h2).1 ha2]
        rfl
      · rw [(fetchGo_failed_step att dec 0 2 slept h2).2 s2 b2 ha2]
        rfl
    rcases ha0 : att 0 with _ | ⟨s0, b0⟩
    · rw [hgo, ((fetchGo_failed_step att dec 2 0 0 h0).1 ha0)]
      rcases ha1 : att 1 with _ | ⟨s1, b1⟩
      · rw [((fetchGo_failed_step att dec 1 1 _ h1).1 ha1)]
        exact step2 _
      · rw [((fetchGo_failed_step att dec 1 1 _ h1).2 s1 b1 ha1)]
        exact step2 _
    · rw [hgo, ((fetchGo_failed_step att dec 2 0 0 h0).2 s0 b0 ha0)]
      rcases ha1 : att 1 with _ | ⟨s1, b1⟩
      · rw [((fetchGo_failed_step att dec 1 1 _ h1).1 ha1)]
        exact step2 _
      · rw [((fetchGo_failed_step att dec 1 1 _ h1).2 s1 b1 ha1)]
        exact step2 _
  · -- two transport errors: exactly two 1-second sleeps
    intro h0 h1
    rw [hgo, fetchGo_transport att dec 2 0 0 h0, fetchGo_transport att dec 1 1 _ h1]
    norm_num
    rcases ha2 : att 2 with _ | ⟨s2, b2⟩
    · rw [fetchGo_transport att dec 0 2 2 ha2]
      rfl
    · rw [fetchGo_response att dec 0 2 2 s2 b2 ha2]
      by_cases hs : s2 = 200
      · rw [if_pos hs]
      · rw [if_neg hs]
        rfl
  · -- only responses: no sleeps at all
    intro h
    obtain ⟨s0, b0, h0⟩ := h 0 (by omega)
    obtain ⟨s1, b1, h1⟩ := h 1 (by omega)
    obtain ⟨s2, b2, h2⟩ := h 2 (by omega)
    rw [hgo, fetchGo_response att dec 2 0 0 s0 b0 h0]
    by_cases hs0 : s0 = 200
    · rw [if_pos hs0]
    · rw [if_neg hs0, fetchGo_response att dec 1 1 0 s1 b1 h1]
      by_cases hs1 : s1 = 200
      · rw [if_pos hs1]
      · rw [if_neg hs1, fetchGo_response att dec 0 2 0 s2 b2 h2]
        by_cases hs2 : s2 = 200
        · rw [if_pos hs2]
        · rw [if_neg hs2]
          rfl

/-- Witness for the corrected C4: two transport errors then a 200
response — included with its decrypted body after exactly 3 attempts
and 2 one-second waits. -/
theorem retry_policy_witness :
    (fetchSegment
        (fun i => if i = 0 then .transportError
          else if i = 1 then .transportError else .response 200 [7]) id).result
      = some (id [7])
    ∧ (fetchSegment
        (fun i => if i = 0 then .transportError
          else if i = 1 then .transportError else .response 200 [7]) id).attemptsMade = 3 :=
  (retry_policy_amended
      (fun i => if i = 0 then .transportError
        else if i = 1 then .transportError else .response 200 [7]) id).2.1
    [7] (by decide) (by decide) (by decide)

end VDown
